import Mathlib

/-!
Shallow embedding of the polynomial curve-fitting core of the notebook
`Tutorials/overfitting_regularization.ipynb`.

The notebook's computational core consists of three numpy functions:

* `polynomial_fit(X, T, M)`:
    `A = np.power(X.reshape(-1,1), np.arange(0, M+1).reshape(1,-1))`
    `W = np.dot(np.linalg.pinv(A), T)` — least squares via Moore–Penrose
    pseudo-inverse, returning the flattened coefficient vector.
* `polynomial_fit_reg(X, T, M, lamb)`:
    `lambda_matrix = lamb * N * np.eye(M+1)` with `N = X.shape[0]`,
    `W = pinv(A.T @ A + lambda_matrix) @ (A.T @ T)`.
* `rms_error(X, T, W)`:
    `p = np.poly1d(W); T_fit = p(X); E = np.sqrt(((T - T_fit)**2 / T.size).sum())`.

We model vectors of length `N` as `Fin N → ℝ`, the design matrix as a
Mathlib `Matrix`, and `np.linalg.pinv` by the Moore–Penrose pseudo-inverse,
characterised by the four Penrose conditions (which determine it uniquely
when it exists). `np.poly1d` evaluates a coefficient list given
highest-degree-first by Horner's rule, which `poly1d` mirrors with a fold.
-/

noncomputable section

open Matrix

/-- The design matrix `A = np.power(X.reshape(-1,1), np.arange(0,M+1).reshape(1,-1))`:
entry `(i, j)` is `X i ^ j`. -/
def designMatrix (N M : ℕ) (X : Fin N → ℝ) : Matrix (Fin N) (Fin (M + 1)) ℝ :=
  Matrix.of fun i j => X i ^ (j : ℕ)

/-- The four Penrose conditions characterising the Moore–Penrose
pseudo-inverse of a real matrix. -/
def IsMoorePenrose {n m : ℕ} (A : Matrix (Fin n) (Fin m) ℝ)
    (B : Matrix (Fin m) (Fin n) ℝ) : Prop :=
  A * B * A = A ∧ B * A * B = B ∧ (A * B)ᵀ = A * B ∧ (B * A)ᵀ = B * A

/-- Model of `np.linalg.pinv`: the Moore–Penrose pseudo-inverse, specified
by the Penrose conditions (unique when it exists). -/
def pinv {n m : ℕ} (A : Matrix (Fin n) (Fin m) ℝ) : Matrix (Fin m) (Fin n) ℝ :=
  @dite _ (∃ B, IsMoorePenrose A B) (Classical.dec _) (fun h => h.choose) fun _ => 0

/-- The plain solver `polynomial_fit(X, T, M) = pinv(A) @ T` with `A` the
design matrix. -/
def polynomial_fit (N M : ℕ) (X T : Fin N → ℝ) : Fin (M + 1) → ℝ :=
  (pinv (designMatrix N M X)).mulVec T

/-- The regularized solver
`polynomial_fit_reg(X, T, M, lamb) = pinv(A.T @ A + lamb*N*eye(M+1)) @ (A.T @ T)`. -/
def polynomial_fit_reg (N M : ℕ) (X T : Fin N → ℝ) (lamb : ℝ) : Fin (M + 1) → ℝ :=
  (pinv ((designMatrix N M X)ᵀ * designMatrix N M X +
      (lamb * (N : ℝ)) • (1 : Matrix (Fin (M + 1)) (Fin (M + 1)) ℝ))).mulVec
    ((designMatrix N M X)ᵀ.mulVec T)

/-- Evaluation of `np.poly1d(W)` at `x`: Horner's rule over the coefficient
list `W`, ordered highest degree first (numpy's `polyval` loop `y = y*x + c`). -/
def poly1d (W : List ℝ) (x : ℝ) : ℝ :=
  W.foldl (fun acc c => acc * x + c) 0

/-- The evaluator `rms_error(X, T, W) = sqrt(((T - poly1d(W)(X))**2 / T.size).sum())`. -/
def rms_error (N : ℕ) (X T : Fin N → ℝ) (W : List ℝ) : ℝ :=
  Real.sqrt (∑ i, (T i - poly1d W (X i)) ^ 2 / (N : ℝ))

/-- Squared Euclidean norm of a vector. -/
def sqNorm {n : ℕ} (v : Fin n → ℝ) : ℝ := dotProduct v v

/-- Euclidean (L2) norm of a vector. -/
def l2norm {n : ℕ} (v : Fin n → ℝ) : ℝ := Real.sqrt (sqNorm v)

/-- Sum of squared residuals `‖A·V − T‖²` of a candidate coefficient vector
`V` for the least-squares problem solved by `polynomial_fit`. -/
def residSq (N M : ℕ) (X T : Fin N → ℝ) (V : Fin (M + 1) → ℝ) : ℝ :=
  sqNorm ((designMatrix N M X).mulVec V - T)

/-- Ascending-order polynomial evaluation `∑ j, c j * x ^ j`, used to relate
Horner evaluation of a reversed coefficient list to the design matrix. -/
def evalAsc : List ℝ → ℝ → ℝ
  | [], _ => 0
  | c :: l, x => c + x * evalAsc l x

end

section PinvBasics

open Matrix

/-- The Moore–Penrose pseudo-inverse is unique when it exists. -/
theorem isMoorePenrose_unique {n m : ℕ} {A : Matrix (Fin n) (Fin m) ℝ}
    {B C : Matrix (Fin m) (Fin n) ℝ}
    (hB : IsMoorePenrose A B) (hC : IsMoorePenrose A C) : B = C := by
  obtain ⟨hB1, hB2, hB3, hB4⟩ := hB
  obtain ⟨hC1, hC2, hC3, hC4⟩ := hC
  have hAB : A * B = A * C := by
    calc A * B = (A * B)ᵀ := hB3.symm
      _ = Bᵀ * Aᵀ := by rw [Matrix.transpose_mul]
      _ = Bᵀ * (A * C * A)ᵀ := by rw [hC1]
      _ = Bᵀ * (Aᵀ * (A * C)ᵀ) := by rw [Matrix.transpose_mul]
      _ = Bᵀ * (Aᵀ * (A * C)) := by rw [hC3]
      _ = (Bᵀ * Aᵀ) * (A * C) := by rw [Matrix.mul_assoc]
      _ = (A * B)ᵀ * (A * C) := by rw [Matrix.transpose_mul]
      _ = (A * B) * (A * C) := by rw [hB3]
      _ = ((A * B) * A) * C := by simp only [Matrix.mul_assoc]
      _ = A * C := by rw [hB1]
  have hBA : B * A = C * A := by
    calc B * A = (B * A)ᵀ := hB4.symm
      _ = Aᵀ * Bᵀ := by rw [Matrix.transpose_mul]
      _ = (A * C * A)ᵀ * Bᵀ := by rw [hC1]
      _ = ((C * A)ᵀ * Aᵀ) * Bᵀ := by
            rw [show A * C * A = A * (C * A) by rw [Matrix.mul_assoc],
              Matrix.transpose_mul]
      _ = ((C * A) * Aᵀ) * Bᵀ := by rw [hC4]
      _ = (C * A) * (Aᵀ * Bᵀ) := by rw [Matrix.mul_assoc]
      _ = (C * A) * (B * A)ᵀ := by rw [Matrix.transpose_mul]
      _ = (C * A) * (B * A) := by rw [hB4]
      _ = C * (A * (B * A)) := by simp only [Matrix.mul_assoc]
      _ = C * A := by rw [← Matrix.mul_assoc A B A, hB1]
  calc B = B * A * B := hB2.symm
    _ = C * A * B := by rw [hBA]
    _ = C * (A * B) := by rw [Matrix.mul_assoc]
    _ = C * (A * C) := by rw [hAB]
    _ = C * A * C := by rw [Matrix.mul_assoc]
    _ = C := hC2

/-- The function `pinv` returns the matrix satisfying the Penrose conditions
whenever one is exhibited. -/
theorem pinv_eq {n m : ℕ} {A : Matrix (Fin n) (Fin m) ℝ}
    {B : Matrix (Fin m) (Fin n) ℝ} (h : IsMoorePenrose A B) : pinv A = B := by
  have hex : ∃ C, IsMoorePenrose A C := ⟨B, h⟩
  unfold pinv
  rw [dif_pos hex]
  exact isMoorePenrose_unique hex.choose_spec h

/-- A two-sided inverse satisfies the Penrose conditions. -/
theorem isMoorePenrose_of_inv {n : ℕ} {A B : Matrix (Fin n) (Fin n) ℝ}
    (h1 : A * B = 1) (h2 : B * A = 1) : IsMoorePenrose A B := by
  refine ⟨?_, ?_, ?_, ?_⟩
  · rw [h1, Matrix.one_mul]
  · rw [h2, Matrix.one_mul]
  · rw [h1, Matrix.transpose_one]
  · rw [h2, Matrix.transpose_one]

end PinvBasics

section PolyEval

/-- Horner evaluation of `l ++ [c]` peels off the trailing coefficient. -/
theorem poly1d_append (l : List ℝ) (c x : ℝ) :
    poly1d (l ++ [c]) x = poly1d l x * x + c := by
  unfold poly1d
  rw [List.foldl_append]
  rfl

/-- Horner evaluation of a reversed (ascending-order) coefficient list agrees
with ascending-order evaluation. -/
theorem poly1d_reverse (l : List ℝ) (x : ℝ) :
    poly1d l.reverse x = evalAsc l x := by
  induction l with
  | nil => rfl
  | cons c l ih =>
    rw [List.reverse_cons, poly1d_append, ih]
    show evalAsc l x * x + c = c + x * evalAsc l x
    ring

/-- Ascending-order evaluation of `List.ofFn W` is the power sum `∑ W j * x ^ j`. -/
theorem evalAsc_ofFn : ∀ {K : ℕ} (W : Fin K → ℝ) (x : ℝ),
    evalAsc (List.ofFn W) x = ∑ j, W j * x ^ (j : ℕ) := by
  intro K
  induction K with
  | zero => intro W x; simp [evalAsc]
  | succ k ih =>
    intro W x
    rw [List.ofFn_succ]
    show W 0 + x * evalAsc (List.ofFn fun i => W i.succ) x = _
    rw [ih, Fin.sum_univ_succ, Finset.mul_sum]
    simp only [Fin.val_zero, pow_zero, mul_one, Fin.val_succ, pow_succ]
    congr 1
    refine Finset.sum_congr rfl fun j _ => by ring

end PolyEval

section ClaimsBasic

open Matrix

/-- C1: for nonempty inputs, `rms_error` computes the plain RMS
`sqrt((1/N) * Σ (poly(W, x_i) - t_i)^2)`, with mean scaling `1/N` and not
the `2/N`-scaled cost-function formula. -/
theorem rms_error_is_plain_rms (N : ℕ) (X T : Fin N → ℝ) (W : List ℝ) (hN : 1 ≤ N) :
    rms_error N X T W =
      Real.sqrt ((1 / (N : ℝ)) * ∑ i, (poly1d W (X i) - T i) ^ 2) := by
  unfold rms_error
  congr 1
  have h : ∀ i : Fin N, (T i - poly1d W (X i)) ^ 2 = (poly1d W (X i) - T i) ^ 2 :=
    fun i => by ring
  simp_rw [h]
  rw [← Finset.sum_div, one_div, inv_mul_eq_div]

/-- Witness for C1 at `N = 1`, `X = [0]`, `T = [0]`, `W = []`. -/
theorem rms_error_is_plain_rms_witness :
    1 ≤ 1 ∧ rms_error 1 ![0] ![0] [] =
      Real.sqrt ((1 / ((1 : ℕ) : ℝ)) *
        ∑ i, (poly1d [] ((![0] : Fin 1 → ℝ) i) - (![0] : Fin 1 → ℝ) i) ^ 2) :=
  ⟨le_refl 1, rms_error_is_plain_rms 1 ![0] ![0] [] (le_refl 1)⟩

/-- C3: the regularized solver computes
`pinv(AᵀA + P) @ (Aᵀ T)` where the penalty matrix `P` has `lamb * N` on the
diagonal and `0` elsewhere — i.e. the penalty is `λN·I`, scaled by the
sample count, not `λ·I`. -/
theorem polynomial_fit_reg_formula (N M : ℕ) (X T : Fin N → ℝ) (lamb : ℝ) :
    polynomial_fit_reg N M X T lamb =
      (pinv ((designMatrix N M X)ᵀ * designMatrix N M X +
        Matrix.of fun j k : Fin (M + 1) =>
          if j = k then lamb * (N : ℝ) else 0)).mulVec
        ((designMatrix N M X)ᵀ.mulVec T) := by
  have hpen : (lamb * (N : ℝ)) • (1 : Matrix (Fin (M + 1)) (Fin (M + 1)) ℝ) =
      Matrix.of fun j k : Fin (M + 1) => if j = k then lamb * (N : ℝ) else 0 := by
    ext j k
    simp [Matrix.smul_apply, Matrix.one_apply, mul_ite]
  unfold polynomial_fit_reg
  rw [hpen]

/-- C4: the design matrix is `N×(M+1)` with entry `(i, j)` equal to
`x_i ^ j`, its column 0 is all ones, and on `X = [2, 3]`, `M = 2` it is
`[[1, 2, 4], [1, 3, 9]]`. -/
theorem designMatrix_entries (N M : ℕ) (X : Fin N → ℝ) :
    (∀ (i : Fin N) (j : Fin (M + 1)), designMatrix N M X i j = X i ^ (j : ℕ)) ∧
    (∀ i : Fin N, designMatrix N M X i 0 = 1) ∧
    designMatrix 2 2 ![2, 3] = !![1, 2, 4; 1, 3, 9] := by
  refine ⟨fun i j => rfl, fun i => ?_, ?_⟩
  · show X i ^ ((0 : Fin (M + 1)) : ℕ) = 1
    simp
  · ext i j
    fin_cases i <;> fin_cases j <;> norm_num [designMatrix]

/-- C10: `rms_error` is invariant under jointly permuting the entries of
`X` and `T`. -/
theorem rms_error_perm_invariant (N : ℕ) (hN : 1 ≤ N) (X T : Fin N → ℝ)
    (W : List ℝ) (σ : Equiv.Perm (Fin N)) :
    rms_error N (X ∘ σ) (T ∘ σ) W = rms_error N X T W := by
  unfold rms_error
  congr 1
  simp only [Function.comp_apply]
  exact Equiv.sum_comp σ fun i => (T i - poly1d W (X i)) ^ 2 / (N : ℝ)

/-- Witness for C10 at `N = 2` with the transposition swapping the two
samples. -/
theorem rms_error_perm_invariant_witness :
    1 ≤ 2 ∧ rms_error 2 ((![1, 2] : Fin 2 → ℝ) ∘ Equiv.swap (0 : Fin 2) 1)
        ((![3, 4] : Fin 2 → ℝ) ∘ Equiv.swap (0 : Fin 2) 1) [1, 0] =
      rms_error 2 ![1, 2] ![3, 4] [1, 0] :=
  ⟨by norm_num,
    rms_error_perm_invariant 2 (by norm_num) ![1, 2] ![3, 4] [1, 0]
      (Equiv.swap (0 : Fin 2) 1)⟩

end ClaimsBasic

section ClaimMean

open Matrix

/-- The degree-0 design matrix is the all-ones column. -/
theorem designMatrix_degree_zero (N : ℕ) (X : Fin N → ℝ) :
    designMatrix N 0 X = Matrix.of fun _ _ => 1 := by
  ext i j
  show X i ^ (j : ℕ) = 1
  have hj : (j : ℕ) = 0 := by have := j.isLt; omega
  rw [hj, pow_zero]

/-- The Moore–Penrose inverse of the `N×1` all-ones column is the `1×N`
constant row `1/N`. -/
theorem isMoorePenrose_ones_col (N : ℕ) (hN : 1 ≤ N) :
    IsMoorePenrose (Matrix.of fun (_ : Fin N) (_ : Fin 1) => (1 : ℝ))
      (Matrix.of fun (_ : Fin 1) (_ : Fin N) => 1 / (N : ℝ)) := by
  have hNR : ((N : ℕ) : ℝ) ≠ 0 := Nat.cast_ne_zero.mpr (by omega)
  refine ⟨?_, ?_, ?_, ?_⟩
  · ext i j
    simp [Matrix.mul_apply, Finset.sum_const, Finset.card_univ]
    field_simp
  · ext i j
    simp [Matrix.mul_apply, Finset.sum_const, Finset.card_univ]
    field_simp
  · ext i j
    simp [Matrix.mul_apply, Matrix.transpose_apply, Finset.sum_const,
      Finset.card_univ]
  · ext i j
    simp [Matrix.mul_apply, Matrix.transpose_apply, Finset.sum_const,
      Finset.card_univ]

/-- C7: at degree `M = 0` the plain solver returns the single coefficient
`mean(T)`. -/
theorem polynomial_fit_degree_zero_mean (N : ℕ) (X T : Fin N → ℝ) (hN : 1 ≤ N) :
    polynomial_fit N 0 X T = fun _ => (∑ i, T i) / (N : ℝ) := by
  unfold polynomial_fit
  rw [designMatrix_degree_zero, pinv_eq (isMoorePenrose_ones_col N hN)]
  ext j
  show ∑ i, (1 / (N : ℝ)) * T i = (∑ i, T i) / (N : ℝ)
  rw [← Finset.mul_sum, one_div, inv_mul_eq_div]

/-- Witness for C7 at `N = 2`, `X = [5, 7]`, `T = [1, 3]`. -/
theorem polynomial_fit_degree_zero_mean_witness :
    polynomial_fit 2 0 ![5, 7] ![1, 3] =
      fun _ => (∑ i, (![1, 3] : Fin 2 → ℝ) i) / ((2 : ℕ) : ℝ) :=
  polynomial_fit_degree_zero_mean 2 ![5, 7] ![1, 3] (by norm_num)

end ClaimMean

section ClaimRegZero

open Matrix

/-- If `B` is the Moore–Penrose inverse of `A`, then `B * Bᵀ` is the
Moore–Penrose inverse of the Gram matrix `Aᵀ * A`. -/
theorem isMoorePenrose_gram {n m : ℕ} {A : Matrix (Fin n) (Fin m) ℝ}
    {B : Matrix (Fin m) (Fin n) ℝ} (hB : IsMoorePenrose A B) :
    IsMoorePenrose (Aᵀ * A) (B * Bᵀ) := by
  obtain ⟨h1, h2, h3, h4⟩ := hB
  have id4 : Bᵀ * Aᵀ = A * B := by rw [← Matrix.transpose_mul, h3]
  have id5 : Aᵀ * Bᵀ = B * A := by rw [← Matrix.transpose_mul, h4]
  have hSB : (Aᵀ * A) * B = Aᵀ := by
    rw [Matrix.mul_assoc]
    calc Aᵀ * (A * B) = Aᵀ * (A * B)ᵀ := by rw [h3]
      _ = Aᵀ * (Bᵀ * Aᵀ) := by rw [Matrix.transpose_mul]
      _ = (A * (B * A))ᵀ := by
            simp only [Matrix.transpose_mul, Matrix.mul_assoc]
      _ = (A * B * A)ᵀ := by rw [Matrix.mul_assoc]
      _ = Aᵀ := by rw [h1]
  have hBtS : Bᵀ * (Aᵀ * A) = A := by
    rw [← Matrix.mul_assoc, id4, h1]
  have hAt2 : (B * A) * Aᵀ = Aᵀ := by
    calc (B * A) * Aᵀ = (B * A)ᵀ * Aᵀ := by rw [h4]
      _ = (A * (B * A))ᵀ := by rw [← Matrix.transpose_mul]
      _ = (A * B * A)ᵀ := by rw [Matrix.mul_assoc]
      _ = Aᵀ := by rw [h1]
  have hSG : (Aᵀ * A) * (B * Bᵀ) = B * A := by
    rw [← Matrix.mul_assoc, hSB, id5]
  have hGS : (B * Bᵀ) * (Aᵀ * A) = B * A := by
    rw [Matrix.mul_assoc, hBtS]
  refine ⟨?_, ?_, ?_, ?_⟩
  · rw [hSG, ← Matrix.mul_assoc, hAt2]
  · rw [hGS, ← Matrix.mul_assoc, h2]
  · rw [hSG, h4]
  · rw [hGS, h4]

/-- C2: with `λ = 0` the regularized solver returns exactly the plain
solver's coefficients. -/
theorem polynomial_fit_reg_zero (N M : ℕ) (X T : Fin N → ℝ) (hN : 1 ≤ N)
    (hMP : ∃ B, IsMoorePenrose (designMatrix N M X) B) :
    polynomial_fit_reg N M X T 0 = polynomial_fit N M X T := by
  obtain ⟨B, hB⟩ := hMP
  unfold polynomial_fit_reg polynomial_fit
  rw [zero_mul, zero_smul, add_zero, pinv_eq (isMoorePenrose_gram hB),
    pinv_eq hB, Matrix.mulVec_mulVec]
  have hBB : B * Bᵀ * (designMatrix N M X)ᵀ = B := by
    calc B * Bᵀ * (designMatrix N M X)ᵀ
        = B * (Bᵀ * (designMatrix N M X)ᵀ) := by rw [Matrix.mul_assoc]
      _ = B * (designMatrix N M X * B) := by
            rw [← Matrix.transpose_mul, hB.2.2.1]
      _ = B * designMatrix N M X * B := by rw [Matrix.mul_assoc]
      _ = B := hB.2.1
  rw [hBB]

/-- Witness for C2 at `N = 2`, `M = 1`, `X = [0, 1]`, `T = [0, 1]`; the
design matrix `[[1,0],[1,1]]` is invertible with inverse `[[1,0],[-1,1]]`. -/
theorem polynomial_fit_reg_zero_witness :
    polynomial_fit_reg 2 1 ![0, 1] ![0, 1] 0 = polynomial_fit 2 1 ![0, 1] ![0, 1] := by
  have hA : designMatrix 2 1 ![0, 1] = !![1, 0; 1, 1] := by
    ext i j
    fin_cases i <;> fin_cases j <;> norm_num [designMatrix]
  refine polynomial_fit_reg_zero 2 1 ![0, 1] ![0, 1] (by norm_num)
    ⟨!![1, 0; -1, 1], ?_⟩
  rw [hA]
  refine isMoorePenrose_of_inv ?_ ?_ <;>
    · ext i j
      fin_cases i <;> fin_cases j <;>
        simp [Matrix.mul_apply, Fin.sum_univ_succ, Matrix.one_apply]

end ClaimRegZero

section ClaimInterpolation

open Matrix

/-- C6: with pairwise-distinct inputs and degree `M = N − 1` the plain
solver interpolates exactly: evaluating the fitted polynomial (coefficients
reversed to highest-degree-first, as the notebook feeds them to
`np.poly1d`) at each training `x_i` returns `t_i`. -/
theorem polynomial_fit_interpolates (k : ℕ) (X T : Fin (k + 1) → ℝ)
    (hX : Function.Injective X) :
    ∀ i, poly1d (List.ofFn (polynomial_fit (k + 1) k X T)).reverse (X i) = T i := by
  intro i
  have hvdm : designMatrix (k + 1) k X = Matrix.vandermonde X := rfl
  have hdet : (designMatrix (k + 1) k X).det ≠ 0 := by
    rw [hvdm, Matrix.det_vandermonde]
    refine Finset.prod_ne_zero_iff.mpr fun a _ => ?_
    refine Finset.prod_ne_zero_iff.mpr fun b hb => ?_
    have hab : a < b := Finset.mem_Ioi.mp hb
    exact sub_ne_zero_of_ne fun h => absurd (hX h) (ne_of_gt hab)
  have hU : IsUnit (designMatrix (k + 1) k X).det := isUnit_iff_ne_zero.mpr hdet
  have hMPinv : IsMoorePenrose (designMatrix (k + 1) k X)
      (designMatrix (k + 1) k X)⁻¹ :=
    isMoorePenrose_of_inv (Matrix.mul_nonsing_inv _ hU) (Matrix.nonsing_inv_mul _ hU)
  have hAW : (designMatrix (k + 1) k X).mulVec (polynomial_fit (k + 1) k X T) = T := by
    unfold polynomial_fit
    rw [pinv_eq hMPinv, Matrix.mulVec_mulVec, Matrix.mul_nonsing_inv _ hU,
      Matrix.one_mulVec]
  have hTi : (designMatrix (k + 1) k X).mulVec (polynomial_fit (k + 1) k X T) i = T i := by
    rw [hAW]
  rw [poly1d_reverse, evalAsc_ofFn, ← hTi]
  show ∑ j, polynomial_fit (k + 1) k X T j * X i ^ (j : ℕ)
      = ∑ j, designMatrix (k + 1) k X i j * polynomial_fit (k + 1) k X T j
  exact Finset.sum_congr rfl fun j _ => mul_comm _ _

/-- Witness for C6 at `N = 2`, `X = [0, 1]`, `T = [0, 1]`, evaluated at the
second training point. -/
theorem polynomial_fit_interpolates_witness :
    poly1d (List.ofFn (polynomial_fit 2 1 ![0, 1] ![0, 1])).reverse
        ((![0, 1] : Fin 2 → ℝ) 1) = (![0, 1] : Fin 2 → ℝ) 1 :=
  polynomial_fit_interpolates 1 ![0, 1] ![0, 1]
    (by
      intro a b hab
      fin_cases a <;> fin_cases b <;> simp_all) 1

end ClaimInterpolation

section ClaimEmpty

open Matrix

/-- C9 counterexample: on empty sample sets none of the three operations
fails — the plain solver returns the zero coefficient vector, the
regularized solver does too, and the RMS evaluator returns `0` (matching
numpy, where `pinv` of an empty matrix and sums over empty arrays are all
defined and yield zeros). -/
theorem empty_input_no_error_counterexample :
    polynomial_fit 0 0 ![] ![] = (fun _ => 0) ∧
    polynomial_fit_reg 0 0 ![] ![] 1 = (fun _ => 0) ∧
    rms_error 0 ![] ![] [1] = 0 := by
  refine ⟨?_, ?_, ?_⟩
  · ext j
    simp [polynomial_fit, Matrix.mulVec, Matrix.dotProduct]
  · ext j
    simp [polynomial_fit_reg, Matrix.mulVec, Matrix.dotProduct]
  · simp [rms_error]

/-- C9 amended: called on empty sample sets (`N = 0`), each core operation
silently returns a defined value — both solvers return the all-zero
coefficient vector and the RMS evaluator returns `0` — rather than raising
any error. -/
theorem empty_input_returns_defined (M : ℕ) (lamb : ℝ) (X T : Fin 0 → ℝ)
    (W : List ℝ) :
    polynomial_fit 0 M X T = (fun _ => 0) ∧
    polynomial_fit_reg 0 M X T lamb = (fun _ => 0) ∧
    rms_error 0 X T W = 0 := by
  refine ⟨?_, ?_, ?_⟩
  · ext j
    simp [polynomial_fit, Matrix.mulVec, Matrix.dotProduct]
  · ext j
    simp [polynomial_fit_reg, Matrix.mulVec, Matrix.dotProduct]
  · simp [rms_error]

end ClaimEmpty

section DotHelpers

open Matrix

/-- The dot product of a real vector with itself is nonnegative. -/
theorem sqNorm_nonneg {n : ℕ} (v : Fin n → ℝ) : 0 ≤ sqNorm v := by
  unfold sqNorm Matrix.dotProduct
  exact Finset.sum_nonneg fun i _ => mul_self_nonneg (v i)

/-- A real vector with vanishing squared norm is zero. -/
theorem sqNorm_eq_zero {n : ℕ} {v : Fin n → ℝ} (h : sqNorm v = 0) : v = 0 :=
  Matrix.dotProduct_self_eq_zero.mp h

/-- Moving a matrix across the dot product transposes it. -/
theorem mulVec_dot {n m : ℕ} (Mx : Matrix (Fin n) (Fin m) ℝ) (s : Fin m → ℝ)
    (u : Fin n → ℝ) :
    dotProduct (Mx.mulVec s) u = dotProduct s (Mxᵀ.mulVec u) := by
  rw [Matrix.dotProduct_mulVec s Mxᵀ u, Matrix.vecMul_transpose]

/-- Expansion of the squared norm of a sum. -/
theorem sqNorm_add {n : ℕ} (u w : Fin n → ℝ) :
    sqNorm (u + w) = sqNorm u + 2 * dotProduct u w + sqNorm w := by
  unfold sqNorm
  rw [Matrix.add_dotProduct, Matrix.dotProduct_add, Matrix.dotProduct_add,
    Matrix.dotProduct_comm w u]
  ring

end DotHelpers

section ClaimLeastNorm

open Matrix

/-- A Moore–Penrose solution `B·T` minimizes the residual `‖A·V − T‖²` over
all `V`, and has minimal squared norm among the minimizers. -/
theorem pinv_solves_least_squares {n m : ℕ} {A : Matrix (Fin n) (Fin m) ℝ}
    {B : Matrix (Fin m) (Fin n) ℝ} (hB : IsMoorePenrose A B) (T : Fin n → ℝ) :
    (∀ V, sqNorm (A.mulVec (B.mulVec T) - T) ≤ sqNorm (A.mulVec V - T)) ∧
    (∀ V, sqNorm (A.mulVec V - T) ≤ sqNorm (A.mulVec (B.mulVec T) - T) →
      sqNorm (B.mulVec T) ≤ sqNorm V) := by
  obtain ⟨h1, h2, h3, h4⟩ := hB
  have hPP : (A * B) * (A * B) = A * B := by
    calc A * B * (A * B) = (A * B * A) * B := by simp only [Matrix.mul_assoc]
      _ = A * B := by rw [h1]
  have hQQ : (B * A) * (B * A) = B * A := by
    calc B * A * (B * A) = (B * A * B) * A := by simp only [Matrix.mul_assoc]
      _ = B * A := by rw [h2]
  have hu : ∀ V : Fin m → ℝ,
      (A * B).mulVec (A.mulVec V - T) = A.mulVec V - (A * B).mulVec T := by
    intro V
    rw [Matrix.mulVec_sub, Matrix.mulVec_mulVec, h1]
  have hdecomp : ∀ V : Fin m → ℝ,
      A.mulVec V - T = (A * B).mulVec (A.mulVec V - T) + ((A * B).mulVec T - T) := by
    intro V
    rw [hu]
    abel
  have hAW : A.mulVec (B.mulVec T) = (A * B).mulVec T := Matrix.mulVec_mulVec T A B
  have hcross : ∀ s : Fin n → ℝ,
      dotProduct ((A * B).mulVec s) ((A * B).mulVec T - T) = 0 := by
    intro s
    rw [mulVec_dot, h3]
    have hz : (A * B).mulVec ((A * B).mulVec T - T) = 0 := by
      rw [Matrix.mulVec_sub, Matrix.mulVec_mulVec, hPP, sub_self]
    rw [hz, Matrix.dotProduct_zero]
  have hres : ∀ V : Fin m → ℝ,
      sqNorm (A.mulVec V - T) =
        sqNorm ((A * B).mulVec (A.mulVec V - T)) + sqNorm ((A * B).mulVec T - T) := by
    intro V
    conv_lhs => rw [hdecomp V]
    rw [sqNorm_add, hcross]
    ring
  have hresW : sqNorm (A.mulVec (B.mulVec T) - T) = sqNorm ((A * B).mulVec T - T) := by
    rw [hAW]
  constructor
  · intro V
    rw [hresW, hres V]
    linarith [sqNorm_nonneg ((A * B).mulVec (A.mulVec V - T))]
  · intro V hV
    have h5 := hres V
    rw [hresW] at hV
    have hminV : sqNorm ((A * B).mulVec (A.mulVec V - T)) = 0 := by
      linarith [sqNorm_nonneg ((A * B).mulVec (A.mulVec V - T))]
    have hu0 : A.mulVec V - (A * B).mulVec T = 0 := by
      rw [← hu V]
      exact sqNorm_eq_zero hminV
    have hproj : A.mulVec V = (A * B).mulVec T := sub_eq_zero.mp hu0
    have hQW : (B * A).mulVec V = B.mulVec T := by
      have hBAB : B * (A * B) = B := by
        calc B * (A * B) = B * A * B := by simp only [Matrix.mul_assoc]
          _ = B := h2
      rw [← Matrix.mulVec_mulVec, hproj, Matrix.mulVec_mulVec, hBAB]
    have hVdecomp : V = B.mulVec T + (V - B.mulVec T) := by abel
    have hcross2 : dotProduct (B.mulVec T) (V - B.mulVec T) = 0 := by
      rw [← hQW, mulVec_dot, h4]
      have hz : (B * A).mulVec (V - (B * A).mulVec V) = 0 := by
        rw [Matrix.mulVec_sub, Matrix.mulVec_mulVec, hQQ, sub_self]
      rw [hz, Matrix.dotProduct_zero]
    calc sqNorm (B.mulVec T)
        ≤ sqNorm (B.mulVec T) + sqNorm (V - B.mulVec T) := by
          linarith [sqNorm_nonneg (V - B.mulVec T)]
      _ = sqNorm V := by
          conv_rhs => rw [hVdecomp]
          rw [sqNorm_add, hcross2]
          ring

/-- C5: whenever the design matrix has a Moore–Penrose inverse (as numpy's
`pinv` always computes), the plain solver raises no singular-matrix error
even for `M ≥ N`: its output minimizes the sum of squared residuals and,
among all minimizers, has least squared Euclidean norm. -/
theorem polynomial_fit_least_norm (N M : ℕ) (X T : Fin N → ℝ) (hN : 1 ≤ N)
    (hM : N ≤ M) (hMP : ∃ B, IsMoorePenrose (designMatrix N M X) B) :
    (∀ V, residSq N M X T (polynomial_fit N M X T) ≤ residSq N M X T V) ∧
    (∀ V, residSq N M X T V ≤ residSq N M X T (polynomial_fit N M X T) →
      sqNorm (polynomial_fit N M X T) ≤ sqNorm V) := by
  obtain ⟨B, hB⟩ := hMP
  have hW : polynomial_fit N M X T = B.mulVec T := by
    unfold polynomial_fit
    rw [pinv_eq hB]
  unfold residSq
  rw [hW]
  exact pinv_solves_least_squares hB T

/-- Witness for C5 at `N = 1`, `M = 1`, `X = [2]`, `T = [3]` (a
rank-deficient, wider-than-tall design matrix `[[1, 2]]`), compared against
the candidate `V = [0, 0]`. -/
theorem polynomial_fit_least_norm_witness :
    residSq 1 1 ![2] ![3] (polynomial_fit 1 1 ![2] ![3]) ≤
      residSq 1 1 ![2] ![3] ![0, 0] := by
  have hA : designMatrix 1 1 ![2] = !![1, 2] := by
    ext i j
    fin_cases i <;> fin_cases j <;> norm_num [designMatrix]
  have hMP : IsMoorePenrose (designMatrix 1 1 ![2]) !![1 / 5; 2 / 5] := by
    rw [hA]
    refine ⟨?_, ?_, ?_, ?_⟩ <;>
      · ext i j
        fin_cases i <;> fin_cases j <;>
          norm_num [Matrix.mul_apply, Fin.sum_univ_succ]
  exact (polynomial_fit_least_norm 1 1 ![2] ![3] (by norm_num) (by norm_num)
    ⟨!![1 / 5; 2 / 5], hMP⟩).1 ![0, 0]

end ClaimLeastNorm

section ClaimShrinkage

open Matrix

/-- The squared norm scales quadratically under scalar multiplication. -/
theorem sqNorm_smul {n : ℕ} (c : ℝ) (v : Fin n → ℝ) :
    sqNorm (c • v) = c ^ 2 * sqNorm v := by
  unfold sqNorm
  rw [Matrix.smul_dotProduct, Matrix.dotProduct_smul, smul_eq_mul, smul_eq_mul]
  ring

/-- The Gram quadratic form `vᵀ(AᵀA)v = ‖Av‖²` is nonnegative. -/
theorem gram_dot_nonneg {n m : ℕ} (A : Matrix (Fin n) (Fin m) ℝ) (v : Fin m → ℝ) :
    0 ≤ dotProduct v ((Aᵀ * A).mulVec v) := by
  rw [← Matrix.mulVec_mulVec, ← mulVec_dot]
  exact sqNorm_nonneg (A.mulVec v)

/-- The ridge-augmented quadratic form is nonnegative for `μ ≥ 0`. -/
theorem ridge_dot_nonneg {n m : ℕ} (A : Matrix (Fin n) (Fin m) ℝ) (mu : ℝ)
    (hmu : 0 ≤ mu) (v : Fin m → ℝ) :
    0 ≤ dotProduct v ((Aᵀ * A + mu • 1).mulVec v) := by
  rw [Matrix.add_mulVec, Matrix.dotProduct_add]
  have h2 : dotProduct v ((mu • (1 : Matrix (Fin m) (Fin m) ℝ)).mulVec v) =
      mu * sqNorm v := by
    rw [Matrix.smul_mulVec_assoc, Matrix.one_mulVec, Matrix.dotProduct_smul,
      smul_eq_mul]
    rfl
  rw [h2]
  exact add_nonneg (gram_dot_nonneg A v) (mul_nonneg hmu (sqNorm_nonneg v))

/-- The ridge-augmented quadratic form is positive definite for `μ > 0`. -/
theorem ridge_dot_pos {n m : ℕ} (A : Matrix (Fin n) (Fin m) ℝ) {mu : ℝ}
    (hmu : 0 < mu) {v : Fin m → ℝ} (hv : v ≠ 0) :
    0 < dotProduct v ((Aᵀ * A + mu • 1).mulVec v) := by
  rw [Matrix.add_mulVec, Matrix.dotProduct_add]
  have h2 : dotProduct v ((mu • (1 : Matrix (Fin m) (Fin m) ℝ)).mulVec v) =
      mu * sqNorm v := by
    rw [Matrix.smul_mulVec_assoc, Matrix.one_mulVec, Matrix.dotProduct_smul,
      smul_eq_mul]
    rfl
  rw [h2]
  have hvv : 0 < sqNorm v := by
    rcases lt_or_eq_of_le (sqNorm_nonneg v) with h | h
    · exact h
    · exact absurd (sqNorm_eq_zero h.symm) hv
  nlinarith [gram_dot_nonneg A v]

/-- The ridge-augmented normal matrix `AᵀA + μ·I` is nonsingular for `μ > 0`. -/
theorem ridge_det_ne_zero {n m : ℕ} (A : Matrix (Fin n) (Fin m) ℝ) {mu : ℝ}
    (hmu : 0 < mu) :
    (Aᵀ * A + mu • (1 : Matrix (Fin m) (Fin m) ℝ)).det ≠ 0 := by
  intro hdet
  obtain ⟨v, hv, hv0⟩ := Matrix.exists_mulVec_eq_zero_iff.mpr hdet
  have hpos := ridge_dot_pos A hmu hv
  rw [hv0, Matrix.dotProduct_zero] at hpos
  exact lt_irrefl 0 hpos

/-- Increasing the ridge parameter does not increase the squared norm of the
solution of the ridge normal equations. -/
theorem ridge_solution_norm_mono {n m : ℕ} (A : Matrix (Fin n) (Fin m) ℝ)
    (b : Fin m → ℝ) {mu1 mu2 : ℝ} (hmu1 : 0 < mu1) (hmu12 : mu1 ≤ mu2) :
    sqNorm ((pinv (Aᵀ * A + mu2 • 1)).mulVec b) ≤
      sqNorm ((pinv (Aᵀ * A + mu1 • 1)).mulVec b) := by
  have hmu2 : 0 < mu2 := lt_of_lt_of_le hmu1 hmu12
  set R1 : Matrix (Fin m) (Fin m) ℝ := Aᵀ * A + mu1 • 1 with hR1
  set R2 : Matrix (Fin m) (Fin m) ℝ := Aᵀ * A + mu2 • 1 with hR2
  have hU1 : IsUnit R1.det := isUnit_iff_ne_zero.mpr (ridge_det_ne_zero A hmu1)
  have hU2 : IsUnit R2.det := isUnit_iff_ne_zero.mpr (ridge_det_ne_zero A hmu2)
  have hMP1 : IsMoorePenrose R1 R1⁻¹ :=
    isMoorePenrose_of_inv (Matrix.mul_nonsing_inv _ hU1) (Matrix.nonsing_inv_mul _ hU1)
  have hMP2 : IsMoorePenrose R2 R2⁻¹ :=
    isMoorePenrose_of_inv (Matrix.mul_nonsing_inv _ hU2) (Matrix.nonsing_inv_mul _ hU2)
  rw [pinv_eq hMP1, pinv_eq hMP2]
  set W1 : Fin m → ℝ := R1⁻¹.mulVec b with hW1
  set W2 : Fin m → ℝ := R2⁻¹.mulVec b with hW2
  set z : Fin m → ℝ := R1⁻¹.mulVec W2 with hz
  set c : ℝ := mu2 - mu1 with hc
  have hcnn : 0 ≤ c := sub_nonneg.mpr hmu12
  have hR2W2 : R2.mulVec W2 = b := by
    rw [hW2, Matrix.mulVec_mulVec, Matrix.mul_nonsing_inv _ hU2, Matrix.one_mulVec]
  have hR1z : R1.mulVec z = W2 := by
    rw [hz, Matrix.mulVec_mulVec, Matrix.mul_nonsing_inv _ hU1, Matrix.one_mulVec]
  have hR2R1 : R2 = R1 + c • (1 : Matrix (Fin m) (Fin m) ℝ) := by
    rw [hR1, hR2, hc, add_assoc, ← add_smul,
      show mu1 + (mu2 - mu1) = mu2 from by ring]
  have happ : R1.mulVec (W2 + c • z) = b := by
    rw [Matrix.mulVec_add, Matrix.mulVec_smul, hR1z]
    have hsplit : R2.mulVec W2 = R1.mulVec W2 + c • W2 := by
      rw [hR2R1, Matrix.add_mulVec, Matrix.smul_mulVec_assoc, Matrix.one_mulVec]
    rw [← hsplit, hR2W2]
  have hW1W2 : W1 = W2 + c • z := by
    have h6 := congrArg (Matrix.mulVec R1⁻¹) happ
    rw [Matrix.mulVec_mulVec, Matrix.nonsing_inv_mul _ hU1, Matrix.one_mulVec] at h6
    rw [hW1, ← h6]
  have hW2z : 0 ≤ dotProduct W2 z := by
    have hcomm : dotProduct W2 z = dotProduct z (R1.mulVec z) := by
      rw [← hR1z]
      exact Matrix.dotProduct_comm _ _
    rw [hcomm, hR1]
    exact ridge_dot_nonneg A mu1 hmu1.le z
  calc sqNorm W2
      ≤ sqNorm W2 + 2 * (c * dotProduct W2 z) + c ^ 2 * sqNorm z := by
        nlinarith [sqNorm_nonneg z]
    _ = sqNorm (W2 + c • z) := by
        rw [sqNorm_add, Matrix.dotProduct_smul, smul_eq_mul, sqNorm_smul]
    _ = sqNorm W1 := by rw [hW1W2]

/-- C8: holding `X`, `T`, `M` fixed, increasing the regularization strength
`λ` within the positive range does not increase the L2 norm of the
coefficient vector returned by the regularized solver. -/
theorem polynomial_fit_reg_shrinkage (N M : ℕ) (X T : Fin N → ℝ) (l1 l2 : ℝ)
    (hN : 1 ≤ N) (hl1 : 0 < l1) (hl12 : l1 ≤ l2) :
    l2norm (polynomial_fit_reg N M X T l2) ≤ l2norm (polynomial_fit_reg N M X T l1) := by
  have hNpos : (0 : ℝ) < (N : ℝ) := by
    have h0 : (0 : ℕ) < N := hN
    exact_mod_cast h0
  unfold polynomial_fit_reg l2norm
  apply Real.sqrt_le_sqrt
  exact ridge_solution_norm_mono (designMatrix N M X)
    ((designMatrix N M X)ᵀ.mulVec T) (mul_pos hl1 hNpos)
    (mul_le_mul_of_nonneg_right hl12 hNpos.le)

/-- Witness for C8 at `N = 1`, `M = 0`, `X = [0]`, `T = [1]`, `λ₁ = 1`,
`λ₂ = 2`. -/
theorem polynomial_fit_reg_shrinkage_witness :
    l2norm (polynomial_fit_reg 1 0 ![0] ![1] 2) ≤
      l2norm (polynomial_fit_reg 1 0 ![0] ![1] 1) :=
  polynomial_fit_reg_shrinkage 1 0 ![0] ![1] 1 2 (by norm_num) (by norm_num)
    (by norm_num)

end ClaimShrinkage
